import Mathlib

/-!
Verification of the MLLP frame codec (`src/lib.rs` of `hl7-mllp-codec`).

Byte buffers are modelled as `List Nat`; `BytesMut` operations that can
panic (`advance`, `split_to`) are modelled as `Option`-returning
functions, `none` meaning a panic.  `decode`, which in Rust returns
`Ok(Option<BytesMut>)` while mutating the buffer in place, is modelled as
a pure function from the buffer to `Option (Option payload × buffer)`:
the outer `Option` is `none` exactly when the Rust code panics, and the
returned buffer is the contents of `src` after the call.
-/

namespace Mllp

/-- `MllpCodec::BLOCK_HEADER`: vertical-tab, marks the start of a message. -/
def BLOCK_HEADER : Nat := 0x0B

/-- `MllpCodec::BLOCK_FOOTER`: file-separator + CR, marks the end of a message. -/
def BLOCK_FOOTER : List Nat := [0x1C, 0x0D]

/-- Rust `Iterator::position`: index of the first element equal to `x`. -/
def position (x : Nat) : List Nat → Option Nat
  | [] => none
  | a :: rest => if a = x then some 0 else (position x rest).map (· + 1)

/-- `MllpCodec::get_footer_position`: scan with one byte of lookahead for the
first index `i` with `src[i] == BLOCK_FOOTER[0]` and `src[i+1] == BLOCK_FOOTER[1]`;
the Rust loop returns `None` once the peeked next element is exhausted. -/
def get_footer_position : List Nat → Option Nat
  | a :: b :: rest =>
    if a = 0x1C ∧ b = 0x0D then some 0
    else (get_footer_position (b :: rest)).map (· + 1)
  | _ => none

/-- `BytesMut::split_to(at)`: detaches and returns the first `n` bytes,
leaving the rest; panics (`none`) when `n` exceeds the length. -/
def split_to (b : List Nat) (n : Nat) : Option (List Nat × List Nat) :=
  if n ≤ b.length then some (b.take n, b.drop n) else none

/-- `Buf::advance(cnt)` on `BytesMut`: drops the first `cnt` bytes;
panics (`none`) when `cnt` exceeds the remaining length. -/
def advance (b : List Nat) (cnt : Nat) : Option (List Nat) :=
  if cnt ≤ b.length then some (b.drop cnt) else none

/-- `BufMut::put_u8`: append one byte. -/
def put_u8 (dst : List Nat) (b : Nat) : List Nat := dst ++ [b]

/-- `BufMut::put_slice`: append a byte slice. -/
def put_slice (dst s : List Nat) : List Nat := dst ++ s

/-- `Encoder::encode` for `MllpCodec`: header byte, payload bytes, footer
bytes, appended to `dst` in that order (the `reserve` call only affects
capacity, not contents, and always succeeds absent allocation failure,
which is outside this model).  The Rust function then returns `Ok(())`. -/
def encode (event dst : List Nat) : List Nat :=
  put_slice (put_slice (put_u8 dst BLOCK_HEADER) event) BLOCK_FOOTER

/-- `Decoder::decode` for `MllpCodec`, faithful to the source:
find the first header byte, then search the WHOLE buffer for a footer,
then `src.split_to(end_offset + 2).split_to(end_offset)` followed by
`result.advance(start_offset + 1)`.  Result `none` models a panic;
`some (o, rest)` models the Rust call returning `Ok(o)` with the buffer
left holding `rest`. -/
def decode (src : List Nat) : Option (Option (List Nat) × List Nat) :=
  match position BLOCK_HEADER src with
  | some start_offset =>
    match get_footer_position src with
    | some end_offset =>
      match split_to src (end_offset + 2) with
      | some (consumed, rest) =>
        match split_to consumed end_offset with
        | some (result, _footer) =>
          match advance result (start_offset + 1) with
          | some payload => some (some payload, rest)
          | none => none
        | none => none
      | none => none
    | none => some (none, src)
  | none => some (none, src)

/-- There is a footer pair (`0x1C` then `0x0D`) at index `i` of `b`. -/
def pairAt (b : List Nat) (i : Nat) : Prop :=
  b[i]? = some 0x1C ∧ b[i + 1]? = some 0x0D

instance (b : List Nat) (i : Nat) : Decidable (pairAt b i) :=
  inferInstanceAs (Decidable (_ ∧ _))

/-- A buffer past its end has no footer pair, so checking up to the length
suffices to rule out every index. -/
theorem noPair_of_bounded (b : List Nat) (h : ∀ i < b.length, ¬ pairAt b i) :
    ∀ i, ¬ pairAt b i := by
  intro i hp
  by_cases hi : i < b.length
  · exact h i hi hp
  · have : b[i]? = none := List.getElem?_eq_none (Nat.le_of_not_lt hi)
    rw [pairAt, this] at hp
    exact Option.noConfusion hp.1

/-- Characterization of `position`: it returns exactly the least index
holding `x`. -/
theorem position_eq_some_iff (x : Nat) (l : List Nat) (i : Nat) :
    position x l = some i ↔ l[i]? = some x ∧ ∀ j < i, l[j]? ≠ some x := by
  induction l generalizing i with
  | nil => simp [position]
  | cons a t ih =>
    simp only [position]
    by_cases h : a = x
    · rw [if_pos h]
      cases i with
      | zero =>
        constructor
        · intro _
          exact ⟨by simp [h], fun j hj => absurd hj (by omega)⟩
        · intro _; rfl
      | succ k =>
        constructor
        · intro hc; exact absurd hc (by simp)
        · rintro ⟨-, hall⟩
          exact absurd (show (a :: t)[0]? = some x by simp [h])
            (hall 0 (Nat.succ_pos k))
    · rw [if_neg h]
      cases i with
      | zero =>
        simp only [List.getElem?_cons_zero, Option.map_eq_some']
        constructor
        · rintro ⟨k, -, hk⟩; exact absurd hk (by simp)
        · rintro ⟨hax, -⟩
          exact absurd (Option.some.inj hax) h
      | succ k =>
        simp only [Option.map_eq_some', List.getElem?_cons_succ]
        constructor
        · rintro ⟨m, hm, hmk⟩
          have hmk' : k = m := by omega
          subst hmk'
          obtain ⟨h1, h2⟩ := (ih k).mp hm
          refine ⟨h1, ?_⟩
          intro j hj
          cases j with
          | zero =>
            simp only [List.getElem?_cons_zero]
            intro hc; exact h (Option.some.inj hc)
          | succ m =>
            simp only [List.getElem?_cons_succ]
            exact h2 m (Nat.lt_of_succ_lt_succ hj)
        · rintro ⟨h1, h2⟩
          refine ⟨k, (ih k).mpr ⟨h1, ?_⟩, rfl⟩
          intro j hj
          have := h2 (j + 1) (Nat.succ_lt_succ hj)
          simpa using this

/-- `position` returns `none` exactly when `x` does not occur. -/
theorem position_eq_none_iff (x : Nat) (l : List Nat) :
    position x l = none ↔ x ∉ l := by
  induction l with
  | nil => simp [position]
  | cons a t ih =>
    simp only [position]
    by_cases h : a = x
    · simp [h]
    · rw [if_neg h]
      simp only [Option.map_eq_none', ih]
      constructor
      · intro hn hmem
        rcases List.mem_cons.mp hmem with he | hm
        · exact h he.symm
        · exact hn hm
      · intro hn hm
        exact hn (List.mem_cons_of_mem a hm)

/-- Characterization of `get_footer_position`: it returns exactly the least
index carrying a footer pair. -/
theorem get_footer_position_eq_some_iff (b : List Nat) (i : Nat) :
    get_footer_position b = some i ↔ pairAt b i ∧ ∀ j < i, ¬ pairAt b j := by
  induction b generalizing i with
  | nil => simp [get_footer_position, pairAt]
  | cons a t ih =>
    cases t with
    | nil =>
      constructor
      · intro hc; exact absurd hc (by simp [get_footer_position])
      · rintro ⟨⟨-, h2⟩, -⟩
        have hnone : ([a] : List Nat)[i + 1]? = none :=
          List.getElem?_eq_none (by simp)
        rw [hnone] at h2
        exact Option.noConfusion h2
    | cons c r =>
      simp only [get_footer_position]
      by_cases h : a = 0x1C ∧ c = 0x0D
      · rw [if_pos h]
        have hp0 : pairAt (a :: c :: r) 0 := by
          simp [pairAt, h.1, h.2]
        cases i with
        | zero => simp [hp0]
        | succ k =>
          constructor
          · intro hc; exact absurd hc (by simp)
          · rintro ⟨-, hall⟩
            exact absurd hp0 (hall 0 (Nat.succ_pos k))
      · rw [if_neg h]
        have hnp0 : ¬ pairAt (a :: c :: r) 0 := by
          simp only [pairAt, List.getElem?_cons_zero, List.getElem?_cons_succ,
            Option.some.injEq]
          intro hc
          exact h ⟨hc.1, hc.2⟩
        cases i with
        | zero =>
          simp only [Option.map_eq_some']
          constructor
          · rintro ⟨k, -, hk⟩; exact absurd hk (by simp)
          · rintro ⟨hp, -⟩; exact absurd hp hnp0
        | succ k =>
          simp only [Option.map_eq_some']
          have hshift : ∀ m, pairAt (a :: c :: r) (m + 1) ↔ pairAt (c :: r) m := by
            intro m
            simp [pairAt]
          constructor
          · rintro ⟨m, hm, hmk⟩
            have hmk' : k = m := by omega
            subst hmk'
            obtain ⟨h1, h2⟩ := (ih k).mp hm
            refine ⟨(hshift k).mpr h1, ?_⟩
            intro j hj
            cases j with
            | zero => exact hnp0
            | succ m =>
              rw [hshift m]
              exact h2 m (Nat.lt_of_succ_lt_succ hj)
          · rintro ⟨h1, h2⟩
            refine ⟨k, (ih k).mpr ⟨(hshift k).mp h1, ?_⟩, rfl⟩
            intro j hj
            rw [← hshift j]
            exact h2 (j + 1) (Nat.succ_lt_succ hj)

/-- `get_footer_position` returns `none` exactly when no footer pair occurs
at any index (in particular on buffers shorter than 2 bytes). -/
theorem get_footer_position_eq_none_iff (b : List Nat) :
    get_footer_position b = none ↔ ∀ i, ¬ pairAt b i := by
  constructor
  · intro hnone i hp
    have hex : ∃ j, pairAt b j := ⟨i, hp⟩
    have hsome : get_footer_position b = some (Nat.find hex) :=
      (get_footer_position_eq_some_iff b _).mpr
        ⟨Nat.find_spec hex, fun j hj => Nat.find_min hex hj⟩
    rw [hnone] at hsome
    exact Option.noConfusion hsome
  · intro hall
    cases hg : get_footer_position b with
    | none => rfl
    | some m =>
      obtain ⟨hm, -⟩ := (get_footer_position_eq_some_iff b m).mp hg
      exact absurd hm (hall m)

/-- Shifting a footer pair across a cons cell. -/
theorem pairAt_cons_succ (a : Nat) (l : List Nat) (m : Nat) :
    pairAt (a :: l) (m + 1) ↔ pairAt l m := by
  simp [pairAt]

/-- A footer pair at `e` forces `e + 2 ≤ b.length`. -/
theorem pairAt_length_le {b : List Nat} {e : Nat} (h : pairAt b e) :
    e + 2 ≤ b.length := by
  rcases List.getElem?_eq_some_iff.mp h.2 with ⟨hlen, -⟩
  omega

/-- Full characterization of `decode` when both a header and a footer are
present: the end offset used is the index of the FIRST footer pair of the
whole buffer; when it lies past the header, the span `[0, e+2)` is consumed
and the bytes `[s+1, e)` are the payload; when it lies before the header,
`result.advance(start_offset + 1)` runs past the detached region's length
and the call panics. -/
theorem decode_eq_of_header_footer (b : List Nat) (s e : Nat)
    (hs : position BLOCK_HEADER b = some s)
    (he : get_footer_position b = some e) :
    decode b = if s + 1 ≤ e
      then some (some ((b.take e).drop (s + 1)), b.drop (e + 2))
      else none := by
  have hpair := ((get_footer_position_eq_some_iff b e).mp he).1
  have he2 : e + 2 ≤ b.length := pairAt_length_le hpair
  have h1 : split_to b (e + 2) = some (b.take (e + 2), b.drop (e + 2)) := by
    rw [split_to, if_pos he2]
  have htt : (b.take (e + 2)).take e = b.take e := by
    rw [List.take_take]
    congr 1
    omega
  have h2 : split_to (b.take (e + 2)) e
      = some (b.take e, (b.take (e + 2)).drop e) := by
    rw [split_to, if_pos (by rw [List.length_take]; omega), htt]
  by_cases hse : s + 1 ≤ e
  · have h3 : advance (b.take e) (s + 1) = some ((b.take e).drop (s + 1)) := by
      rw [advance, if_pos (by rw [List.length_take]; omega)]
    rw [if_pos hse]
    simp only [decode, hs, he, h1, h2, h3]
  · have h3 : advance (b.take e) (s + 1) = none := by
      rw [advance, if_neg (by rw [List.length_take]; omega)]
    rw [if_neg hse]
    simp only [decode, hs, he, h1, h2, h3]

/-- Successful-path corollary: first header at `s`, first footer pair at
`e`, `s < e`: the span `[0, e+2)` is consumed and the payload is the bytes
at indices `s+1` through `e-1`. -/
theorem decode_success (b : List Nat) (s e : Nat)
    (hs : position BLOCK_HEADER b = some s)
    (he : get_footer_position b = some e)
    (hlt : s < e) :
    decode b = some (some ((b.take e).drop (s + 1)), b.drop (e + 2)) := by
  rw [decode_eq_of_header_footer b s e hs he, if_pos (by omega)]

/-- Panic corollary: when the buffer's first footer pair precedes its first
header byte, `decode` panics. -/
theorem decode_panic (b : List Nat) (s e : Nat)
    (hs : position BLOCK_HEADER b = some s)
    (he : get_footer_position b = some e)
    (hlt : e < s) :
    decode b = none := by
  rw [decode_eq_of_header_footer b s e hs he, if_neg (by omega)]

/-- The first footer pair of a well-formed frame followed by arbitrary
bytes is the frame's own footer, at index `P.length + 1`. -/
theorem get_footer_position_frame (P rest : List Nat)
    (hP : ∀ i, ¬ pairAt P i) :
    get_footer_position (BLOCK_HEADER :: (P ++ 0x1C :: 0x0D :: rest))
      = some (P.length + 1) := by
  apply (get_footer_position_eq_some_iff _ _).mpr
  refine ⟨⟨?_, ?_⟩, ?_⟩
  · show (BLOCK_HEADER :: (P ++ 0x1C :: 0x0D :: rest))[P.length + 1]? = some 0x1C
    rw [List.getElem?_cons_succ, List.getElem?_append_right (Nat.le_refl _)]
    simp
  · show (BLOCK_HEADER :: (P ++ 0x1C :: 0x0D :: rest))[P.length + 1 + 1]? = some 0x0D
    rw [List.getElem?_cons_succ, List.getElem?_append_right (by omega)]
    have hdx : P.length + 1 - P.length = 1 := by omega
    rw [hdx]
    simp
  · intro j hj hp
    cases j with
    | zero =>
      obtain ⟨hp1, -⟩ := hp
      simp [BLOCK_HEADER] at hp1
    | succ m =>
      obtain ⟨hp1, hp2⟩ := (pairAt_cons_succ _ _ m).mp hp
      have hmlt : m < P.length := by omega
      by_cases hm : m + 1 < P.length
      · refine absurd ?_ (hP m)
        exact ⟨by rwa [List.getElem?_append_left hmlt] at hp1,
          by rwa [List.getElem?_append_left hm] at hp2⟩
      · have h2' : (P ++ 0x1C :: 0x0D :: rest)[m + 1]? = some 0x1C := by
          rw [List.getElem?_append_right (by omega)]
          have hdx : m + 1 - P.length = 0 := by omega
          rw [hdx]
          simp
        rw [h2'] at hp2
        exact absurd (Option.some.inj hp2) (by decide)

/-- `position` finds a leading header immediately. -/
theorem position_cons_self (x : Nat) (l : List Nat) :
    position x (x :: l) = some 0 := by
  simp [position]

/-- Decoding a buffer that starts with one complete well-formed frame:
the payload is returned and exactly the trailing bytes stay behind. -/
theorem decode_frame (P rest : List Nat) (hP : ∀ i, ¬ pairAt P i) :
    decode (BLOCK_HEADER :: (P ++ 0x1C :: 0x0D :: rest)) = some (some P, rest) := by
  have hs : position BLOCK_HEADER (BLOCK_HEADER :: (P ++ 0x1C :: 0x0D :: rest))
      = some 0 := position_cons_self _ _
  have he := get_footer_position_frame P rest hP
  rw [decode_success _ 0 (P.length + 1) hs he (by omega)]
  have htake : ((BLOCK_HEADER :: (P ++ 0x1C :: 0x0D :: rest)).take (P.length + 1)).drop (0 + 1)
      = P := by
    simp only [List.take_succ_cons, List.drop_succ_cons, List.drop_zero]
    exact List.take_left' rfl
  have hdrop : (BLOCK_HEADER :: (P ++ 0x1C :: 0x0D :: rest)).drop (P.length + 1 + 2)
      = rest := by
    have h3 : P.length + 1 + 2 = P.length + 2 + 1 := by omega
    rw [h3]
    simp only [List.drop_succ_cons]
    have hassoc : P ++ 0x1C :: 0x0D :: rest = (P ++ [0x1C, 0x0D]) ++ rest := by
      simp
    rw [hassoc]
    exact List.drop_left' (by simp)
  rw [htake, hdrop]

/-- C1: for every payload containing neither the header byte 0x0B nor the
two-byte footer sequence 0x1C,0x0D, encoding into an empty output buffer and
then decoding the result returns the payload and leaves the buffer empty. -/
theorem claim_C1_roundtrip (P : List Nat)
    (_hhdr : BLOCK_HEADER ∉ P) (hftr : ∀ i, ¬ pairAt P i) :
    decode (encode P []) = some (some P, []) := by
  have hframe : encode P [] = BLOCK_HEADER :: (P ++ 0x1C :: 0x0D :: []) := by
    simp [encode, put_u8, put_slice, BLOCK_FOOTER]
  rw [hframe]
  exact decode_frame P [] hftr

/-- Concrete instance of C1 at payload "Hi". -/
theorem claim_C1_witness :
    decode (encode [72, 105] []) = some (some [72, 105], []) :=
  claim_C1_roundtrip [72, 105] (by decide) (noPair_of_bounded _ (by decide))

/-- C2 evaluated at a buffer whose first footer pair precedes its first
header byte: the Rust code reaches `result.advance(start_offset + 1)` with
`start_offset + 1` exceeding the detached region's length, which panics
(`advance` asserts `cnt <= remaining`), modelled here as result `none`
instead of the "no frame yet" the claim requires. -/
theorem claim_C2_panic_on_footer_before_header :
    decode [0x1C, 0x0D, 0x0B] = none := by decide

/-- C3: when the first header byte sits at index `s` and the first footer
pair at index `e > s`, decode consumes `[0, e+2)` and returns the bytes at
indices `s+1` through `e-1`, leaving exactly the bytes from `e+2` onward. -/
theorem claim_C3_success_extraction (b : List Nat) (s e : Nat)
    (hs : b[s]? = some BLOCK_HEADER ∧ ∀ j < s, b[j]? ≠ some BLOCK_HEADER)
    (he : pairAt b e ∧ ∀ j < e, ¬ pairAt b j)
    (hlt : s < e) :
    decode b = some (some ((b.take e).drop (s + 1)), b.drop (e + 2)) :=
  decode_success b s e ((position_eq_some_iff BLOCK_HEADER b s).mpr hs)
    ((get_footer_position_eq_some_iff b e).mpr he) hlt

/-- Concrete instance of C3: garbage byte, then a frame, then trailing bytes. -/
theorem claim_C3_witness :
    decode [1, 0x0B, 65, 66, 0x1C, 0x0D, 9, 9] = some (some [65, 66], [9, 9]) := by
  have h := claim_C3_success_extraction [1, 0x0B, 65, 66, 0x1C, 0x0D, 9, 9] 1 4
    ⟨by decide, by decide⟩ ⟨by decide, by decide⟩ (by decide)
  simpa using h

/-- C4: with the first header at `s`, the end offset decode uses is the
index `e` of the ENTIRE buffer's first footer pair (the scan starts at
index 0, not at `s`): when `e` is past the header the frame ending at `e`
is consumed, and when `e` lies before the header that earlier `e` is still
the one used, making the advance step panic. -/
theorem claim_C4_footer_scan_from_start (b : List Nat) (s e : Nat)
    (hs : b[s]? = some BLOCK_HEADER ∧ ∀ j < s, b[j]? ≠ some BLOCK_HEADER)
    (he : pairAt b e ∧ ∀ j < e, ¬ pairAt b j) :
    decode b = if s + 1 ≤ e
      then some (some ((b.take e).drop (s + 1)), b.drop (e + 2))
      else none :=
  decode_eq_of_header_footer b s e ((position_eq_some_iff BLOCK_HEADER b s).mpr hs)
    ((get_footer_position_eq_some_iff b e).mpr he)

/-- Concrete instance of C4: a stray footer pair before the header is
matched in preference to the real footer after it (index 0, not 4). -/
theorem claim_C4_witness :
    decode [0x1C, 0x0D, 0x0B, 65, 0x1C, 0x0D] = none := by
  have h := claim_C4_footer_scan_from_start [0x1C, 0x0D, 0x0B, 65, 0x1C, 0x0D] 2 0
    ⟨by decide, by decide⟩ ⟨by decide, by decide⟩
  simpa using h

/-- C5: the footer locator returns the smallest index carrying the pair
0x1C,0x0D, returns `none` exactly when no such adjacent pair exists, and in
particular returns `none` on every buffer with fewer than 2 bytes.  (It is
a pure function of the buffer — the Rust code only iterates by shared
reference — and has no failure mode.) -/
theorem claim_C5_footer_locator (b : List Nat) :
    (∀ i, get_footer_position b = some i → pairAt b i ∧ ∀ j < i, ¬ pairAt b j)
    ∧ (get_footer_position b = none ↔ ∀ i, ¬ pairAt b i)
    ∧ (b.length < 2 → get_footer_position b = none) := by
  refine ⟨fun i hi => (get_footer_position_eq_some_iff b i).mp hi,
    get_footer_position_eq_none_iff b, fun hlen => ?_⟩
  apply (get_footer_position_eq_none_iff b).mpr
  intro i hp
  rcases List.getElem?_eq_some_iff.mp hp.2 with ⟨hl, -⟩
  omega

/-- Concrete instances of C5: the spec's example buffer (footer at index 5),
a pair-free buffer, and a 1-byte buffer. -/
theorem claim_C5_witness :
    pairAt [0x0B, 97, 98, 99, 100, 0x1C, 0x0D] 5
    ∧ get_footer_position [110, 111, 112] = none
    ∧ get_footer_position [0x1C] = none :=
  ⟨((claim_C5_footer_locator [0x0B, 97, 98, 99, 100, 0x1C, 0x0D]).1 5 (by decide)).1,
    (claim_C5_footer_locator [110, 111, 112]).2.1.mpr (noPair_of_bounded _ (by decide)),
    (claim_C5_footer_locator [0x1C]).2.2 (by decide)⟩

/-- C6: a buffer containing no header byte decodes to "no frame yet" with
its contents (hence length) unchanged. -/
theorem claim_C6_no_header (b : List Nat) (h : BLOCK_HEADER ∉ b) :
    decode b = some (none, b) := by
  simp only [decode, (position_eq_none_iff BLOCK_HEADER b).mpr h]

/-- Concrete instance of C6: pure garbage is retained. -/
theorem claim_C6_witness : decode [1, 2, 3] = some (none, [1, 2, 3]) :=
  claim_C6_no_header [1, 2, 3] (by decide)

/-- C7: a buffer containing a header byte but no footer pair decodes to
"no frame yet" and is left fully intact, header included. -/
theorem claim_C7_no_footer (b : List Nat) (hmem : BLOCK_HEADER ∈ b)
    (hnf : ∀ i, ¬ pairAt b i) :
    decode b = some (none, b) := by
  have hgf : get_footer_position b = none :=
    (get_footer_position_eq_none_iff b).mpr hnf
  obtain ⟨s, hs⟩ : ∃ s, position BLOCK_HEADER b = some s := by
    cases hp : position BLOCK_HEADER b with
    | none => exact absurd hmem ((position_eq_none_iff BLOCK_HEADER b).mp hp)
    | some s => exact ⟨s, rfl⟩
  simp only [decode, hs, hgf]

/-- Concrete instance of C7: header plus partial payload is retained. -/
theorem claim_C7_witness :
    decode [7, 0x0B, 65, 0x1C] = some (none, [7, 0x0B, 65, 0x1C]) :=
  claim_C7_no_footer [7, 0x0B, 65, 0x1C] (by decide)
    (noPair_of_bounded _ (by decide))

/-- C8: encode appends exactly header byte, payload unchanged, footer bytes
to the output buffer, growing it by `payload length + 3` and leaving its
prior contents in place (the Rust call then returns `Ok(())`; the input
payload is taken by value and never mutated). -/
theorem claim_C8_encode_layout (P dst : List Nat) :
    encode P dst = dst ++ BLOCK_HEADER :: (P ++ [0x1C, 0x0D])
    ∧ (encode P dst).length = dst.length + (P.length + 3)
    ∧ (encode P dst).take dst.length = dst := by
  refine ⟨?_, ?_, ?_⟩
  · simp [encode, put_u8, put_slice, BLOCK_FOOTER]
  · simp only [encode, put_u8, put_slice, BLOCK_FOOTER, List.length_append]
    simp
    omega
  · simp only [encode, put_u8, put_slice, List.append_assoc]
    exact List.take_left dst _

/-- C9: two concatenated frames decode in order; the first call leaves the
second frame (with its header) intact and the second call empties the
buffer. -/
theorem claim_C9_two_frames (P1 P2 : List Nat)
    (h1 : ∀ i, ¬ pairAt P1 i) (h2 : ∀ i, ¬ pairAt P2 i) :
    decode (encode P1 [] ++ encode P2 []) = some (some P1, encode P2 [])
    ∧ decode (encode P2 []) = some (some P2, []) := by
  constructor
  · have hsplit : encode P1 [] ++ encode P2 []
        = BLOCK_HEADER :: (P1 ++ 0x1C :: 0x0D :: encode P2 []) := by
      simp [encode, put_u8, put_slice, BLOCK_FOOTER]
    rw [hsplit]
    exact decode_frame P1 (encode P2 []) h1
  · have hframe : encode P2 [] = BLOCK_HEADER :: (P2 ++ 0x1C :: 0x0D :: []) := by
      simp [encode, put_u8, put_slice, BLOCK_FOOTER]
    rw [hframe]
    exact decode_frame P2 [] h2

/-- Concrete instance of C9 with payloads "A" and "B". -/
theorem claim_C9_witness :
    decode (encode [65] [] ++ encode [66] []) = some (some [65], encode [66] [])
    ∧ decode (encode [66] []) = some (some [66], []) :=
  claim_C9_two_frames [65] [66] (noPair_of_bounded _ (by decide))
    (noPair_of_bounded _ (by decide))

/-- C10: any payload returned by decode is footer-free: the consumed frame
ends at the buffer's FIRST footer pair, so no pair can occur strictly
inside the returned slice. -/
theorem claim_C10_payload_footer_free (b p rest : List Nat)
    (h : decode b = some (some p, rest)) :
    ∀ i, ¬ pairAt p i := by
  intro i hp
  cases hpos : position BLOCK_HEADER b with
  | none => simp [decode, hpos] at h
  | some s =>
    cases hft : get_footer_position b with
    | none => simp [decode, hpos, hft] at h
    | some e =>
      rw [decode_eq_of_header_footer b s e hpos hft] at h
      by_cases hse : s + 1 ≤ e
      · rw [if_pos hse] at h
        simp only [Option.some.injEq, Prod.mk.injEq] at h
        obtain ⟨hpeq, -⟩ := h
        subst hpeq
        obtain ⟨c1, c2⟩ := hp
        rw [List.getElem?_drop] at c1 c2
        have hlt2 : s + 1 + (i + 1) < e := by
          rcases List.getElem?_eq_some_iff.mp c2 with ⟨hl, -⟩
          rw [List.length_take] at hl
          omega
        have hb1 : b[s + 1 + i]? = some 0x1C := by
          rw [← List.getElem?_take_of_lt (show s + 1 + i < e by omega)]
          exact c1
        have hb2 : b[s + 1 + i + 1]? = some 0x0D := by
          rw [← List.getElem?_take_of_lt (show s + 1 + i + 1 < e by omega)]
          exact c2
        have hmin := ((get_footer_position_eq_some_iff b e).mp hft).2
        exact hmin (s + 1 + i) (by omega) ⟨hb1, hb2⟩
      · rw [if_neg hse] at h
        exact Option.noConfusion h

/-- Concrete instance of C10: the payload of a decoded frame has no footer
pair at its only index. -/
theorem claim_C10_witness : ¬ pairAt [84] 0 :=
  claim_C10_payload_footer_free [0x0B, 84, 0x1C, 0x0D] [84] [] (by decide) 0

end Mllp
